import Mathlib

/-!
Shallow embedding of the hiisi server's io_uring reactor
(src/hiisi-server/src/io/linux.rs) and proofs about it.

Modelling conventions:
* Rust `u64` arithmetic is `Nat` with an explicit `% 2 ^ 64` where the
  code increments; socket handles and callback values are identified by
  `Nat` ids; byte buffers are `List Nat`.
* A Rust `panic!` / `unwrap` / `expect` / `todo!` abort is the `panic`
  constructor of `PanicOr`, carrying a `PanicMsg` value standing for the
  diagnostic text of the corresponding Rust message.
* Callbacks are plain function pointers in the source; their bodies are
  modelled as programs (`List Cmd`) over the reactor's public operations
  (`accept`/`recv`/`send`/`close`), which is exactly what the spec allows
  a continuation to do.  An `Env` fixes the program of each callback id
  and an oracle for the kernel's synchronous `sock.send`.
* Socket addresses, logging and printing are elided: no claim mentions
  them.  `ring.submit()` is modelled as always accepted by the kernel.
* The ghost fields `trace` (continuation invocations, in order) and
  `syncSent` (synchronous `sock.send` calls) record externally observable
  effects; the ghost key paired with each ready-queue record tracks which
  correlation id it was harvested under.
-/

namespace Hiisi

/-- Width of Rust u64 arithmetic. -/
def U64 : Nat := 2 ^ 64

/-- `IoUring::new(RING_SIZE)` in the source: capacity of the submission queue. -/
def RING_SIZE : Nat := 1024

/-- Diagnostics of the abort paths in the source (each constructor stands
for the message text of one `expect`/`unwrap`/`todo!` site). -/
inductive PanicMsg where
  /-- accept: expect on a full submission queue. -/
  | sqFullAccept
  /-- recv: expect on a full submission queue. -/
  | sqFullRecv
  /-- send: expect on a full submission queue. -/
  | sqFullSend
  /-- flush_submissions: `submissions.remove(&key).unwrap()` found no entry. -/
  | unwrapNone
  /-- the `todo!()` arms for the `Close` variant. -/
  | todoClose
  /-- slicing `&buf[..n]` past the buffer's length in send dispatch. -/
  | sliceRange
deriving DecidableEq

/-- Result of running reactor code that may abort the process. -/
inductive PanicOr (α : Type) where
  | panic (msg : PanicMsg)
  | ok (a : α)
deriving DecidableEq

/-- Model of `bytes::BytesMut`: an allocation of `cap` bytes whose first
`len` are initialized from the library's point of view.  The kernel writes
through the raw pointer without updating `len`. -/
structure BytesMut where
  data : List Nat
  len : Nat
  cap : Nat
deriving DecidableEq

/-- `BytesMut::with_capacity`: fresh allocation, length 0. -/
def BytesMut.withCapacity (c : Nat) : BytesMut :=
  ⟨List.replicate c 0, 0, c⟩

/-- The slice `&buf[..]`: the first `len` bytes of the allocation. -/
def BytesMut.slice (b : BytesMut) : List Nat :=
  b.data.take b.len

/-- `BytesMut::set_len`. -/
def BytesMut.setLen (b : BytesMut) (n : Nat) : BytesMut :=
  ⟨b.data, n, b.cap⟩

/-- The `Completion<C>` enum: one in-flight operation record.  Addresses
are elided; `cbId` identifies the stored callback. -/
inductive Completion where
  | accept (fd : Int) (serverSock : Nat) (cbId : Nat)
  | close
  | recv (sock : Nat) (buf : BytesMut) (cbId : Nat)
  | send (sock : Nat) (buf : BytesMut) (n : Nat) (cbId : Nat)
deriving DecidableEq

/-- Ghost record of one continuation invocation. -/
inductive TraceEv where
  | acceptCb (cbId : Nat) (newFd : Int)
  | recvCb (cbId : Nat) (bytes : List Nat) (n : Nat)
  | sendCb (cbId : Nat) (n : Nat)
deriving DecidableEq

/-- One reactor call a continuation body may make. -/
inductive Cmd where
  | cAccept (serverSock : Nat) (cbId : Nat)
  | cRecv (sock : Nat) (cbId : Nat)
  | cSend (sock : Nat) (buf : BytesMut) (n : Nat) (cbId : Nat)
  | cClose (sock : Nat)
deriving DecidableEq

/-- The parts of the `IO<C>` state that submission methods and callbacks
touch: ring submission side, key counter, submissions table, plus the two
ghost logs. -/
structure Core where
  sqPending : Nat
  keySeq : Nat
  submissions : List (Nat × Completion)
  trace : List TraceEv
  syncSent : List (Nat × List Nat)
deriving DecidableEq

/-- Full reactor state: the core plus the ready queue
(`completions: VecDeque<Completion>`), each entry paired with the ghost
correlation id it was harvested under. -/
structure IOState where
  core : Core
  completions : List (Nat × Completion)
deriving DecidableEq

/-- Behaviour of the outside world: `oracle sock bytes` is the byte count
returned by a synchronous `sock.send(bytes)`, and `prog cbId` is the body
of callback `cbId` as a list of reactor calls. -/
structure Env where
  oracle : Nat → List Nat → Nat
  prog : Nat → List Cmd

/-- `HashMap::get` on the submissions table, modelled as an assoc list. -/
def lookupKey : List (Nat × Completion) → Nat → Option Completion
  | [], _ => none
  | (k, c) :: rest, key => if k = key then some c else lookupKey rest key

/-- `HashMap::remove` on the submissions table. -/
def removeKey (l : List (Nat × Completion)) (key : Nat) : List (Nat × Completion) :=
  l.filter (fun p => p.1 ≠ key)

/-- `HashMap::insert` on the submissions table (overwrites an old entry). -/
def insertKey (l : List (Nat × Completion)) (key : Nat) (c : Completion) :
    List (Nat × Completion) :=
  (key, c) :: removeKey l key

/-- `IO::get_key`: returns the current counter value and increments it
(u64 wrap-around made explicit). -/
def getKey (core : Core) : Nat × Core :=
  (core.keySeq, { core with keySeq := (core.keySeq + 1) % U64 })

/-- `IO::accept`: builds an Accept record with `fd: 0`, draws a fresh key,
pushes the kernel request (aborting via `expect` when the submission queue
is full), and stores the record in the submissions table. -/
def accept (core : Core) (serverSock : Nat) (cbId : Nat) : PanicOr Core :=
  let c := Completion.accept 0 serverSock cbId
  let p := getKey core
  let key := p.1
  let core := p.2
  if core.sqPending < RING_SIZE then
    PanicOr.ok { core with
      sqPending := core.sqPending + 1,
      submissions := insertKey core.submissions key c }
  else
    PanicOr.panic PanicMsg.sqFullAccept

/-- `IO::recv`: allocates a 4096-byte scratch buffer, builds a Recv
record, draws a fresh key, pushes the kernel request and stores the
record. -/
def recv (core : Core) (sock : Nat) (cbId : Nat) : PanicOr Core :=
  let buf := BytesMut.withCapacity 4096
  let c := Completion.recv sock buf cbId
  let p := getKey core
  let key := p.1
  let core := p.2
  if core.sqPending < RING_SIZE then
    PanicOr.ok { core with
      sqPending := core.sqPending + 1,
      submissions := insertKey core.submissions key c }
  else
    PanicOr.panic PanicMsg.sqFullRecv

/-- `IO::send`: builds a Send record holding the buffer and the requested
count `n`, draws a fresh key, pushes the kernel request and stores the
record. -/
def send (core : Core) (sock : Nat) (buf : BytesMut) (n : Nat) (cbId : Nat) :
    PanicOr Core :=
  let c := Completion.send sock buf n cbId
  let p := getKey core
  let key := p.1
  let core := p.2
  if core.sqPending < RING_SIZE then
    PanicOr.ok { core with
      sqPending := core.sqPending + 1,
      submissions := insertKey core.submissions key c }
  else
    PanicOr.panic PanicMsg.sqFullSend

/-- An `Rc<socket2::Socket>` handle: its strong count and whether the
underlying descriptor is open. -/
structure RcSock where
  strong : Nat
  fdOpen : Bool
deriving DecidableEq

/-- Dropping one `Rc` share: the descriptor closes exactly when the last
share is dropped. -/
def rcDrop (s : RcSock) : RcSock :=
  if s.strong ≤ 1 then ⟨0, false⟩ else ⟨s.strong - 1, s.fdOpen⟩

/-- `IO::close`: the body is `drop(sock)` — the reactor state is not
touched and nothing is pushed onto the ring. -/
def close (st : IOState) (sock : RcSock) : IOState × RcSock :=
  (st, rcDrop sock)

/-- `Completion::prepare`: folds the kernel result into the record.
Accept stores the new fd; Recv and Send ignore the result; Close is
`todo!()`. -/
def prepare (c : Completion) (result : Int) : PanicOr Completion :=
  match c with
  | .accept _ serverSock cbId => PanicOr.ok (.accept result serverSock cbId)
  | .close => PanicOr.panic PanicMsg.todoClose
  | .recv sock buf cbId => PanicOr.ok (.recv sock buf cbId)
  | .send sock buf n cbId => PanicOr.ok (.send sock buf n cbId)

/-- The kernel's write into a recv buffer's allocation: overwrites the
first bytes of the memory without updating the `BytesMut` length. -/
def memWrite (buf : BytesMut) (bytes : List Nat) : BytesMut :=
  ⟨(bytes ++ buf.data.drop bytes.length).take buf.cap, buf.len, buf.cap⟩

/-- Applies the kernel-side memory effect of a completion to its record:
only Recv buffers are written by the kernel. -/
def kernelEffect (c : Completion) (written : List Nat) : Completion :=
  match c with
  | .recv sock buf cbId => .recv sock (memWrite buf written) cbId
  | c => c

/-- One completion-queue entry as reported by the kernel: the correlation
id (`user_data`), the result code, and the bytes the kernel wrote into
the operation's buffer (empty for non-Recv operations). -/
structure Event where
  key : Nat
  result : Int
  written : List Nat
deriving DecidableEq

/-- One iteration of the harvest loop in `IO::flush_submissions`: remove
the record for the event's key (`unwrap` aborts when there is none),
apply `prepare`, and push the enriched record onto the ready queue. -/
def harvestOne (st : IOState) (ev : Event) : PanicOr IOState :=
  match lookupKey st.core.submissions ev.key with
  | none => PanicOr.panic PanicMsg.unwrapNone
  | some c =>
    match prepare (kernelEffect c ev.written) ev.result with
    | .panic m => .panic m
    | .ok c2 =>
      PanicOr.ok
        ⟨{ st.core with submissions := removeKey st.core.submissions ev.key },
          st.completions ++ [(ev.key, c2)]⟩

/-- `IO::flush_submissions`: harvest every kernel completion event, in
completion-queue order. -/
def flushSubmissions (st : IOState) : List Event → PanicOr IOState
  | [] => PanicOr.ok st
  | ev :: rest =>
    match harvestOne st ev with
    | .panic m => .panic m
    | .ok st2 => flushSubmissions st2 rest

/-- One reactor call made from inside a continuation body. -/
def execCmd (core : Core) : Cmd → PanicOr Core
  | .cAccept serverSock cbId => accept core serverSock cbId
  | .cRecv sock cbId => recv core sock cbId
  | .cSend sock buf n cbId => send core sock buf n cbId
  | .cClose _ => PanicOr.ok core

/-- A continuation body: the reactor calls it makes, run in order. -/
def execCmds (env : Env) (core : Core) : List Cmd → PanicOr Core
  | [] => PanicOr.ok core
  | cmd :: rest =>
    match execCmd core cmd with
    | .panic m => .panic m
    | .ok core2 => execCmds env core2 rest

/-- `Completion::complete`: invoke the record's continuation.  Recv reads
the `BytesMut` length as the byte count (the source's `let n = buf.len()`
followed by `set_len(n)` and `cb(io, sock, &buf[..], n)`); Send performs
a second, synchronous `sock.send(&buf[..n])` and hands its result to the
continuation; Close is `todo!()`. -/
def completeOne (env : Env) (core : Core) : Nat × Completion → PanicOr Core
  | (_, .accept fd _ cbId) =>
    execCmds env { core with trace := core.trace ++ [.acceptCb cbId fd] }
      (env.prog cbId)
  | (_, .close) => PanicOr.panic PanicMsg.todoClose
  | (_, .recv _ buf cbId) =>
    execCmds env
      { core with
        trace := core.trace ++ [.recvCb cbId ((buf.setLen buf.len).slice) buf.len] }
      (env.prog cbId)
  | (_, .send sock buf n cbId) =>
    if n ≤ buf.len then
      execCmds env
        { core with
          syncSent := core.syncSent ++ [(sock, buf.data.take n)],
          trace := core.trace ++ [.sendCb cbId (env.oracle sock (buf.data.take n))] }
        (env.prog cbId)
    else
      PanicOr.panic PanicMsg.sliceRange

/-- The dispatch loop of `IO::flush_completions` over the popped records:
continuation bodies can only reach the core (the ready queue is private),
so the loop walks the queue front to back. -/
def flushCompletionsAux (env : Env) (core : Core) :
    List (Nat × Completion) → PanicOr Core
  | [] => PanicOr.ok core
  | c :: rest =>
    match completeOne env core c with
    | .panic m => .panic m
    | .ok core2 => flushCompletionsAux env core2 rest

/-- `IO::flush_completions`: pop records until the ready queue is empty,
invoking each one's continuation. -/
def flushCompletions (env : Env) (st : IOState) : PanicOr IOState :=
  match flushCompletionsAux env st.core st.completions with
  | .panic m => .panic m
  | .ok core => .ok ⟨core, []⟩

/-- `ring.submit()`: the pending submission-queue entries are handed to
the kernel (submission failures are out of scope for every claim). -/
def submitRing (st : IOState) : IOState :=
  ⟨{ st.core with sqPending := 0 }, st.completions⟩

/-- `IO::run_once` given the kernel completion events available this
cycle: submit, then harvest, then dispatch. -/
def runOnce (env : Env) (st : IOState) (events : List Event) : PanicOr IOState :=
  match flushSubmissions (submitRing st) events with
  | .panic m => .panic m
  | .ok st2 => flushCompletions env st2

/-- `IO::new`: key counter 0, empty tables. -/
def initCore : Core := ⟨0, 0, [], [], []⟩

/-- Fresh reactor state. -/
def initState : IOState := ⟨initCore, []⟩

/-- The key returned by the `i`-th `get_key` call after state `core`. -/
def nthKeyFrom (core : Core) : Nat → Nat
  | 0 => (getKey core).1
  | i + 1 => nthKeyFrom (getKey core).2 i

/-- The trace event a ready-queue record produces when dispatched
(junk values for records whose dispatch aborts before invoking a
continuation). -/
def invocationOf (env : Env) : Nat × Completion → TraceEv
  | (_, .accept fd _ cbId) => .acceptCb cbId fd
  | (_, .close) => .acceptCb 0 0
  | (_, .recv _ buf cbId) => .recvCb cbId ((buf.setLen buf.len).slice) buf.len
  | (_, .send sock buf n cbId) => .sendCb cbId (env.oracle sock (buf.data.take n))

/-- Correlation ids present in the submissions table. -/
def subKeys (core : Core) : List Nat := core.submissions.map Prod.fst

/-- Correlation ids of records sitting in the ready queue. -/
def readyKeys (st : IOState) : List Nat := st.completions.map Prod.fst

/-- Ownership invariant over a core and a ready-queue key list: every
tracked id is below the counter and no id is in both the submissions
table and the ready queue. -/
def InvC (core : Core) (ready : List Nat) : Prop :=
  (∀ k ∈ subKeys core, k < core.keySeq) ∧
  (∀ k ∈ ready, k < core.keySeq) ∧
  (∀ k ∈ subKeys core, k ∉ ready)

/-- Ownership invariant of a reactor state. -/
def Inv (st : IOState) : Prop := InvC st.core (readyKeys st)

/-- The callback id stored in a record. -/
def cbIdOf : Completion → Nat
  | .accept _ _ cb => cb
  | .close => 0
  | .recv _ _ cb => cb
  | .send _ _ _ cb => cb

/-- An environment whose continuations do nothing further and whose
synchronous sends report 0 bytes. -/
def env0 : Env := ⟨fun _ _ => 0, fun _ => []⟩

/-- A reactor state with one in-flight Recv (key 0, socket 7, callback 3). -/
def demoState : IOState :=
  ⟨⟨0, 1, [(0, Completion.recv 7 (BytesMut.withCapacity 4096) 3)], [], []⟩, []⟩

/-- A kernel completion for key 0 reporting 5 received bytes. -/
def demoEvent : Event := ⟨0, 5, [1, 2, 3, 4, 5]⟩

/-- The state demoState reaches after one run_once over demoEvent. -/
def demoOut : IOState := ⟨⟨0, 1, [], [TraceEv.recvCb 3 [] 0], []⟩, []⟩

/-!  Helper lemmas shared by several claims.  -/

theorem lookupKey_removeKey (l : List (Nat × Completion)) (key : Nat) :
    lookupKey (removeKey l key) key = none := by
  induction l with
  | nil => rfl
  | cons p rest ih =>
    obtain ⟨k, c⟩ := p
    by_cases h : k = key
    · simpa [removeKey, List.filter_cons, h] using ih
    · simpa [removeKey, List.filter_cons, h, lookupKey] using ih

theorem nthKeyFrom_eq (i : Nat) : ∀ core : Core, core.keySeq < U64 →
    nthKeyFrom core i = (core.keySeq + i) % U64 := by
  induction i with
  | zero =>
    intro core h
    simp [nthKeyFrom, getKey, Nat.mod_eq_of_lt h]
  | succ n ih =>
    intro core h
    have hpos : 0 < U64 := by decide
    have h2 : (core.keySeq + 1) % U64 < U64 := Nat.mod_lt _ hpos
    show nthKeyFrom (getKey core).2 n = (core.keySeq + (n + 1)) % U64
    rw [ih (getKey core).2 h2]
    show ((core.keySeq + 1) % U64 + n) % U64 = (core.keySeq + (n + 1)) % U64
    rw [Nat.mod_add_mod]
    congr 1
    omega

/-- C2: get_key starts at 0 and, before u64 wrap-around (which the spec
scopes out), is strictly increasing and never repeats, so the correlation
ids of any sequence of submitted operations are pairwise distinct. -/
theorem next_key_strictly_increasing_from_zero :
    nthKeyFrom initCore 0 = 0 ∧
    ∀ i j : Nat, i < j → j < U64 →
      nthKeyFrom initCore i < nthKeyFrom initCore j ∧
      nthKeyFrom initCore i ≠ nthKeyFrom initCore j := by
  have h0 : initCore.keySeq < U64 := by decide
  refine ⟨rfl, ?_⟩
  intro i j hij hj
  have hi : nthKeyFrom initCore i = i := by
    rw [nthKeyFrom_eq i initCore h0]
    show (0 + i) % U64 = i
    rw [Nat.zero_add]
    exact Nat.mod_eq_of_lt (Nat.lt_trans hij hj)
  have hjv : nthKeyFrom initCore j = j := by
    rw [nthKeyFrom_eq j initCore h0]
    show (0 + j) % U64 = j
    rw [Nat.zero_add]
    exact Nat.mod_eq_of_lt hj
  rw [hi, hjv]
  exact ⟨hij, Nat.ne_of_lt hij⟩

/-- Witness for C2 at the concrete calls i = 0, j = 1. -/
theorem next_key_strictly_increasing_from_zero_witness :
    nthKeyFrom initCore 0 < nthKeyFrom initCore 1 ∧
    nthKeyFrom initCore 0 ≠ nthKeyFrom initCore 1 :=
  next_key_strictly_increasing_from_zero.2 0 1 (by decide) (by decide)

/-- A reactor core whose submission ring already holds RING_SIZE entries. -/
def fullCore : Core := ⟨RING_SIZE, 0, [], [], []⟩

/-- C5 (code bug): with the submission ring full, accept aborts the
process through expect instead of surfacing an error to the caller. -/
theorem accept_panics_when_ring_full :
    accept fullCore 4 0 = PanicOr.panic PanicMsg.sqFullAccept := by rfl

/-- C8: close leaves the reactor state untouched (nothing goes through
the kernel ring), drops exactly one ownership share of the handle, and
the descriptor stays open exactly when other shares remain. -/
theorem close_drops_share_without_ring (st : IOState) (sock : RcSock)
    (h : 1 ≤ sock.strong) :
    (close st sock).1 = st ∧
    (close st sock).2.strong = sock.strong - 1 ∧
    ((close st sock).2.fdOpen = true ↔ 1 < sock.strong ∧ sock.fdOpen = true) := by
  obtain ⟨s, o⟩ := sock
  refine ⟨rfl, ?_, ?_⟩
  · simp only [close, rcDrop]
    by_cases hs : s ≤ 1
    · simp only [if_pos hs]
      show (0 : Nat) = s - 1
      omega
    · simp only [if_neg hs]
  · simp only [close, rcDrop]
    by_cases hs : s ≤ 1
    · simp only [if_pos hs]
      have h1 : ¬ 1 < s := by omega
      simp [h1]
    · simp only [if_neg hs]
      have h1 : 1 < s := by omega
      simp [h1]

/-- Witness for C8: dropping one of two shares keeps the descriptor open. -/
theorem close_drops_share_without_ring_witness :
    (close initState ⟨2, true⟩).1 = initState ∧
    (close initState ⟨2, true⟩).2.strong = 2 - 1 ∧
    ((close initState ⟨2, true⟩).2.fdOpen = true ↔
      1 < (2 : Nat) ∧ (true : Bool) = true) :=
  close_drops_share_without_ring initState ⟨2, true⟩ (by decide)

/-- C6: a harvested correlation id with no record in the submissions
table aborts the process with the unwrap diagnostic (never silently),
and a harvest that succeeds has removed the id's record from the table. -/
theorem missing_correlation_id_is_fatal (st : IOState) (ev : Event) :
    (lookupKey st.core.submissions ev.key = none →
      harvestOne st ev = PanicOr.panic PanicMsg.unwrapNone) ∧
    (∀ st2, harvestOne st ev = PanicOr.ok st2 →
      lookupKey st2.core.submissions ev.key = none) := by
  constructor
  · intro h
    simp [harvestOne, h]
  · intro st2 h
    unfold harvestOne at h
    split at h
    · cases h
    · split at h
      · cases h
      · cases h
        exact lookupKey_removeKey _ _

/-- Witness for C6: harvesting key 0 against an empty table aborts. -/
theorem missing_correlation_id_is_fatal_witness :
    harvestOne initState ⟨0, 0, []⟩ = PanicOr.panic PanicMsg.unwrapNone :=
  (missing_correlation_id_is_fatal initState ⟨0, 0, []⟩).1 rfl

/-- C1 (code bug): the kernel reported 5 bytes and wrote them into the
receive buffer, yet the dispatched Recv continuation is invoked with an
empty slice and byte count 0 — the kernel result is never folded in, so
a genuine 0 (peer shutdown) is indistinguishable from any other result. -/
theorem recv_continuation_gets_zero_bytes_despite_kernel_result :
    runOnce env0 demoState [demoEvent] = PanicOr.ok demoOut := by rfl

/-- Continuations that do nothing; synchronous sends write only 2 bytes. -/
def sendEnv : Env := ⟨fun _ _ => 2, fun _ => []⟩

/-- A fully initialized 3-byte send buffer. -/
def sendBuf : BytesMut := ⟨[10, 20, 30], 3, 3⟩

/-- A quiescent core about to dispatch a Send record. -/
def sendCore : Core := ⟨0, 6, [], [], []⟩

/-- The core after dispatching that Send: one synchronous send of the 3
bytes was attempted, the continuation was told 2 bytes went out, and
nothing was re-submitted (submissions table still empty). -/
def sendOutCore : Core := ⟨0, 6, [], [TraceEv.sendCb 9 2], [(1, [10, 20, 30])]⟩

/-- C7 (code bug): when the synchronous send reports only 2 of the 3
requested bytes, the continuation is invoked with 2 and the remaining
byte is silently dropped: no record is re-submitted and no further send
occurs. -/
theorem partial_send_remainder_dropped :
    completeOne sendEnv sendCore (5, Completion.send 1 sendBuf 3 9) =
      PanicOr.ok sendOutCore := by rfl

/-!  Structure of one harvest step and of the dispatch loop.  -/

theorem harvestOne_shape (st st1 : IOState) (ev : Event)
    (h : harvestOne st ev = PanicOr.ok st1) :
    ∃ c2, st1.completions = st.completions ++ [(ev.key, c2)] ∧
      st1.core.trace = st.core.trace ∧
      st1.core.syncSent = st.core.syncSent ∧
      st1.core.keySeq = st.core.keySeq ∧
      st1.core.sqPending = st.core.sqPending ∧
      st1.core.submissions = removeKey st.core.submissions ev.key := by
  unfold harvestOne at h
  split at h
  · cases h
  · split at h
    · cases h
    · cases h
      exact ⟨_, rfl, rfl, rfl, rfl, rfl, rfl⟩

theorem flushSubmissions_shape (evs : List Event) :
    ∀ st st2, flushSubmissions st evs = PanicOr.ok st2 →
      ∃ recs : List (Nat × Completion),
        st2.completions = st.completions ++ recs ∧
        recs.map Prod.fst = evs.map Event.key ∧
        st2.core.trace = st.core.trace ∧
        st2.core.syncSent = st.core.syncSent := by
  induction evs with
  | nil =>
    intro st st2 h
    cases h
    exact ⟨[], by simp, rfl, rfl, rfl⟩
  | cons ev rest ih =>
    intro st st2 h
    unfold flushSubmissions at h
    cases hh : harvestOne st ev with
    | panic m => rw [hh] at h; cases h
    | ok st1 =>
      rw [hh] at h
      obtain ⟨c2, hc1, ht1, hs1, _, _, _⟩ := harvestOne_shape st st1 ev hh
      obtain ⟨recs, hcomp, hkeys, htr, hsy⟩ := ih st1 st2 h
      refine ⟨(ev.key, c2) :: recs, ?_, ?_, ?_, ?_⟩
      · rw [hcomp, hc1]
        simp
      · simp [hkeys]
      · rw [htr, ht1]
      · rw [hsy, hs1]

theorem execCmd_ghost (core core2 : Core) (cmd : Cmd)
    (h : execCmd core cmd = PanicOr.ok core2) :
    core2.trace = core.trace ∧ core2.syncSent = core.syncSent := by
  cases cmd with
  | cAccept s cb =>
    simp only [execCmd, accept, getKey] at h
    split at h
    · cases h; exact ⟨rfl, rfl⟩
    · cases h
  | cRecv s cb =>
    simp only [execCmd, recv, getKey] at h
    split at h
    · cases h; exact ⟨rfl, rfl⟩
    · cases h
  | cSend s buf n cb =>
    simp only [execCmd, send, getKey] at h
    split at h
    · cases h; exact ⟨rfl, rfl⟩
    · cases h
  | cClose s =>
    cases h
    exact ⟨rfl, rfl⟩

theorem execCmds_ghost (env : Env) (cmds : List Cmd) :
    ∀ core core2, execCmds env core cmds = PanicOr.ok core2 →
      core2.trace = core.trace ∧ core2.syncSent = core.syncSent := by
  induction cmds with
  | nil =>
    intro core core2 h
    cases h
    exact ⟨rfl, rfl⟩
  | cons cmd rest ih =>
    intro core core2 h
    unfold execCmds at h
    cases hc : execCmd core cmd with
    | panic m => rw [hc] at h; cases h
    | ok core1 =>
      rw [hc] at h
      obtain ⟨h1, h2⟩ := execCmd_ghost core core1 cmd hc
      obtain ⟨h3, h4⟩ := ih core1 core2 h
      exact ⟨h3.trans h1, h4.trans h2⟩

theorem completeOne_trace (env : Env) (core core2 : Core)
    (c : Nat × Completion) (h : completeOne env core c = PanicOr.ok core2) :
    core2.trace = core.trace ++ [invocationOf env c] := by
  obtain ⟨k, cc⟩ := c
  cases cc with
  | accept fd s cb =>
    simp only [completeOne] at h
    have := (execCmds_ghost env (env.prog cb) _ _ h).1
    simpa [invocationOf] using this
  | close =>
    cases h
  | recv s buf cb =>
    simp only [completeOne] at h
    have := (execCmds_ghost env (env.prog cb) _ _ h).1
    simpa [invocationOf] using this
  | send s buf n cb =>
    simp only [completeOne] at h
    split at h
    · have := (execCmds_ghost env (env.prog cb) _ _ h).1
      simpa [invocationOf] using this
    · cases h

theorem flushCompletionsAux_trace (env : Env) (l : List (Nat × Completion)) :
    ∀ core core2, flushCompletionsAux env core l = PanicOr.ok core2 →
      core2.trace = core.trace ++ l.map (invocationOf env) := by
  induction l with
  | nil =>
    intro core core2 h
    cases h
    simp
  | cons c rest ih =>
    intro core core2 h
    unfold flushCompletionsAux at h
    cases hc : completeOne env core c with
    | panic m => rw [hc] at h; cases h
    | ok core1 =>
      rw [hc] at h
      have h1 := completeOne_trace env core core1 c hc
      have h2 := ih core1 core2 h
      rw [h2, h1]
      simp

/-- C3: within one run_once call entered with an empty ready queue, the
continuations run in exactly the order their kernel completions were
harvested (FIFO): the trace extends by one invocation per harvested
record, in harvest order. -/
theorem dispatch_follows_harvest_order (env : Env) (st st2 : IOState)
    (evs : List Event) (hq : st.completions = [])
    (h : runOnce env st evs = PanicOr.ok st2) :
    ∃ recs : List (Nat × Completion),
      recs.map Prod.fst = evs.map Event.key ∧
      st2.core.trace = st.core.trace ++ recs.map (invocationOf env) := by
  unfold runOnce at h
  split at h
  · cases h
  · rename_i mid hf
    obtain ⟨recs, hcomp, hkeys, htr, _⟩ := flushSubmissions_shape evs _ _ hf
    refine ⟨recs, hkeys, ?_⟩
    unfold flushCompletions at h
    split at h
    · cases h
    · rename_i core2 hd
      cases h
      have h3 := flushCompletionsAux_trace env mid.completions mid.core core2 hd
      rw [h3, htr]
      have h4 : mid.completions = recs := by
        rw [hcomp]
        simp [submitRing, hq]
      rw [h4]
      rfl

/-- Witness for C3: one harvested Recv completion, one continuation run. -/
theorem dispatch_follows_harvest_order_witness :
    ∃ recs : List (Nat × Completion),
      recs.map Prod.fst = [demoEvent].map Event.key ∧
      demoOut.core.trace = demoState.core.trace ++ recs.map (invocationOf env0) :=
  dispatch_follows_harvest_order env0 demoState demoOut [demoEvent] rfl rfl

/-- C4: a successful run_once factors through an intermediate state in
which every available kernel completion has been moved into the ready
queue while no continuation has run and no byte has been sent (trace and
synchronous-send log unchanged); dispatch starts only from that state. -/
theorem harvest_drains_before_dispatch (env : Env) (st st2 : IOState)
    (evs : List Event) (h : runOnce env st evs = PanicOr.ok st2) :
    ∃ mid recs,
      flushSubmissions (submitRing st) evs = PanicOr.ok mid ∧
      mid.core.trace = st.core.trace ∧
      mid.core.syncSent = st.core.syncSent ∧
      mid.completions = st.completions ++ recs ∧
      recs.map Prod.fst = evs.map Event.key ∧
      flushCompletions env mid = PanicOr.ok st2 := by
  unfold runOnce at h
  split at h
  · cases h
  · rename_i mid hf
    obtain ⟨recs, hcomp, hkeys, htr, hsy⟩ := flushSubmissions_shape evs _ _ hf
    exact ⟨mid, recs, hf, htr, hsy, hcomp, hkeys, h⟩

/-- Witness for C4 on the concrete single-Recv cycle. -/
theorem harvest_drains_before_dispatch_witness :
    ∃ mid recs,
      flushSubmissions (submitRing demoState) [demoEvent] = PanicOr.ok mid ∧
      mid.core.trace = demoState.core.trace ∧
      mid.core.syncSent = demoState.core.syncSent ∧
      mid.completions = demoState.completions ++ recs ∧
      recs.map Prod.fst = [demoEvent].map Event.key ∧
      flushCompletions env0 mid = PanicOr.ok demoOut :=
  harvest_drains_before_dispatch env0 demoState demoOut [demoEvent] rfl

/-- C10: Completion::prepare discards the ring-reported result of a Send
(the record is returned unchanged for every result r), and dispatching
the record performs a second, synchronous send of the first n buffer
bytes, invoking the continuation with that synchronous result. -/
theorem send_dispatch_resends_synchronously (env : Env) (core core2 : Core)
    (k sock : Nat) (buf : BytesMut) (n cbId : Nat) (r : Int) :
    prepare (Completion.send sock buf n cbId) r =
      PanicOr.ok (Completion.send sock buf n cbId) ∧
    (completeOne env core (k, Completion.send sock buf n cbId) = PanicOr.ok core2 →
      core2.syncSent = core.syncSent ++ [(sock, buf.data.take n)] ∧
      core2.trace =
        core.trace ++ [TraceEv.sendCb cbId (env.oracle sock (buf.data.take n))]) := by
  refine ⟨rfl, ?_⟩
  intro h
  simp only [completeOne] at h
  split at h
  · obtain ⟨h1, h2⟩ := execCmds_ghost env (env.prog cbId) _ _ h
    exact ⟨h2, h1⟩
  · cases h

/-- Witness for C10 on the concrete partial-send dispatch. -/
theorem send_dispatch_resends_synchronously_witness :
    sendOutCore.syncSent = sendCore.syncSent ++ [(1, sendBuf.data.take 3)] ∧
    sendOutCore.trace =
      sendCore.trace ++ [TraceEv.sendCb 9 (sendEnv.oracle 1 (sendBuf.data.take 3))] :=
  (send_dispatch_resends_synchronously sendEnv sendCore sendOutCore
    5 1 sendBuf 3 9 0).2 rfl

/-!  Preservation of the record-ownership invariant.  -/

theorem lookupKey_mem (l : List (Nat × Completion)) (key : Nat) (c : Completion)
    (h : lookupKey l key = some c) : key ∈ l.map Prod.fst := by
  induction l with
  | nil => cases h
  | cons p rest ih =>
    obtain ⟨k1, c1⟩ := p
    by_cases hk : k1 = key
    · simp [hk]
    · simp only [lookupKey, if_neg hk] at h
      simp [ih h]

theorem mem_removeKey (l : List (Nat × Completion)) (key k : Nat)
    (h : k ∈ (removeKey l key).map Prod.fst) :
    k ∈ l.map Prod.fst ∧ k ≠ key := by
  obtain ⟨p, hp, rfl⟩ := List.mem_map.1 h
  have hf := List.mem_filter.1 hp
  refine ⟨List.mem_map.2 ⟨p, hf.1, rfl⟩, ?_⟩
  simpa using hf.2

theorem not_mem_removeKey (l : List (Nat × Completion)) (key : Nat) :
    key ∉ (removeKey l key).map Prod.fst := by
  intro h
  exact (mem_removeKey l key key h).2 rfl

theorem insert_invc (core : Core) (ready : List Nat) (c : Completion)
    (hInv : InvC core ready) (hb : core.keySeq + 1 < U64) (core2 : Core)
    (hsub : core2.submissions = insertKey core.submissions core.keySeq c)
    (hks : core2.keySeq = (core.keySeq + 1) % U64) :
    InvC core2 ready := by
  obtain ⟨h1, h2, h3⟩ := hInv
  have hmod : (core.keySeq + 1) % U64 = core.keySeq + 1 := Nat.mod_eq_of_lt hb
  refine ⟨?_, ?_, ?_⟩
  · intro k hk
    simp only [subKeys, hsub, insertKey, List.map_cons, List.mem_cons] at hk
    rw [hks, hmod]
    rcases hk with hk | hk
    · omega
    · have := h1 k (mem_removeKey _ _ _ hk).1
      omega
  · intro k hk
    have := h2 k hk
    rw [hks, hmod]
    omega
  · intro k hk
    simp only [subKeys, hsub, insertKey, List.map_cons, List.mem_cons] at hk
    rcases hk with hk | hk
    · subst hk
      intro hmem
      exact absurd (h2 _ hmem) (lt_irrefl _)
    · exact h3 k (mem_removeKey _ _ _ hk).1

theorem execCmd_invc (core core2 : Core) (ready : List Nat) (cmd : Cmd)
    (hInv : InvC core ready) (hb : core.keySeq + 1 < U64)
    (h : execCmd core cmd = PanicOr.ok core2) :
    InvC core2 ready ∧ core2.keySeq ≤ core.keySeq + 1 := by
  cases cmd with
  | cAccept s cb =>
    simp only [execCmd, accept, getKey] at h
    split at h
    · cases h
      exact ⟨insert_invc core ready _ hInv hb _ rfl rfl, Nat.mod_le _ _⟩
    · cases h
  | cRecv s cb =>
    simp only [execCmd, recv, getKey] at h
    split at h
    · cases h
      exact ⟨insert_invc core ready _ hInv hb _ rfl rfl, Nat.mod_le _ _⟩
    · cases h
  | cSend s buf n cb =>
    simp only [execCmd, send, getKey] at h
    split at h
    · cases h
      exact ⟨insert_invc core ready _ hInv hb _ rfl rfl, Nat.mod_le _ _⟩
    · cases h
  | cClose s =>
    cases h
    exact ⟨hInv, Nat.le_succ _⟩

theorem execCmds_invc (env : Env) (ready : List Nat) (cmds : List Cmd) :
    ∀ core core2, InvC core ready → core.keySeq + cmds.length < U64 →
      execCmds env core cmds = PanicOr.ok core2 →
      InvC core2 ready ∧ core2.keySeq ≤ core.keySeq + cmds.length := by
  induction cmds with
  | nil =>
    intro core core2 h _ he
    cases he
    exact ⟨h, Nat.le_refl _⟩
  | cons cmd rest ih =>
    intro core core2 hInv hb he
    unfold execCmds at he
    cases hc : execCmd core cmd with
    | panic m => rw [hc] at he; cases he
    | ok core1 =>
      rw [hc] at he
      have hb1 : core.keySeq + 1 < U64 := by
        simp only [List.length_cons] at hb
        omega
      obtain ⟨hI1, hk1⟩ := execCmd_invc core core1 ready cmd hInv hb1 hc
      have hb2 : core1.keySeq + rest.length < U64 := by
        simp only [List.length_cons] at hb
        omega
      obtain ⟨hI2, hk2⟩ := ih core1 core2 hI1 hb2 he
      refine ⟨hI2, ?_⟩
      simp only [List.length_cons]
      omega

theorem completeOne_invc (env : Env) (core core2 : Core) (k : Nat)
    (cc : Completion) (rest : List (Nat × Completion))
    (hInv : Inv ⟨core, (k, cc) :: rest⟩)
    (hb : core.keySeq + (env.prog (cbIdOf cc)).length < U64)
    (h : completeOne env core (k, cc) = PanicOr.ok core2) :
    Inv ⟨core2, rest⟩ := by
  have hInv2 : InvC core (readyKeys ⟨core, rest⟩) := by
    obtain ⟨h1, h2, h3⟩ := hInv
    refine ⟨h1, ?_, ?_⟩
    · intro kk hkk
      refine h2 kk ?_
      simp only [readyKeys, List.map_cons, List.mem_cons] at hkk ⊢
      exact Or.inr hkk
    · intro kk hkk
      have h4 := h3 kk hkk
      simp only [readyKeys, List.map_cons, List.mem_cons] at h4 ⊢
      intro hm
      exact h4 (Or.inr hm)
  cases cc with
  | accept fd s cb =>
    simp only [completeOne] at h
    exact (execCmds_invc env _ (env.prog cb) _ _ (by exact hInv2) (by exact hb) h).1
  | close =>
    cases h
  | recv s buf cb =>
    simp only [completeOne] at h
    exact (execCmds_invc env _ (env.prog cb) _ _ (by exact hInv2) (by exact hb) h).1
  | send s buf n cb =>
    simp only [completeOne] at h
    split at h
    · exact (execCmds_invc env _ (env.prog cb) _ _ (by exact hInv2) (by exact hb) h).1
    · cases h

theorem harvestOne_invc (st st2 : IOState) (ev : Event)
    (hInv : Inv st) (h : harvestOne st ev = PanicOr.ok st2) :
    Inv st2 ∧ ev.key ∉ subKeys st2.core ∧ ev.key ∈ readyKeys st2 := by
  unfold harvestOne at h
  split at h
  · cases h
  · rename_i c hl
    split at h
    · cases h
    · rename_i c2 hp
      cases h
      obtain ⟨h1, h2, h3⟩ := hInv
      have hkmem : ev.key ∈ subKeys st.core := lookupKey_mem _ _ _ hl
      have hklt : ev.key < st.core.keySeq := h1 _ hkmem
      refine ⟨⟨?_, ?_, ?_⟩, ?_, ?_⟩
      · intro k hk
        simp only [subKeys] at hk
        exact h1 k (mem_removeKey _ _ _ hk).1
      · intro k hk
        simp only [readyKeys, List.map_append, List.map_cons, List.map_nil,
          List.mem_append, List.mem_singleton] at hk
        rcases hk with hk | hk
        · exact h2 k hk
        · subst hk
          exact hklt
      · intro k hk
        simp only [subKeys] at hk
        have hmr := mem_removeKey _ _ _ hk
        simp only [readyKeys, List.map_append, List.map_cons, List.map_nil,
          List.mem_append, List.mem_singleton]
        intro hm
        rcases hm with hm | hm
        · exact h3 k hmr.1 hm
        · exact hmr.2 hm
      · simp only [subKeys]
        exact not_mem_removeKey _ _
      · simp [readyKeys]

/-- C9: each reactor operation keeps every Operation Record owned by
exactly one of the submissions table and the ready queue: the submission
methods insert only into the table (they do not reach the ready queue),
close touches neither, harvest moves a record from the table to the
ready queue in one step, dispatch consumes one queue record, and under
all of them two containers with disjoint correlation ids stay disjoint. -/
theorem record_ownership_exclusive (env : Env) :
    (∀ core ready s cb core2, InvC core ready → core.keySeq + 1 < U64 →
      accept core s cb = PanicOr.ok core2 → InvC core2 ready) ∧
    (∀ core ready s cb core2, InvC core ready → core.keySeq + 1 < U64 →
      recv core s cb = PanicOr.ok core2 → InvC core2 ready) ∧
    (∀ core ready s buf n cb core2, InvC core ready → core.keySeq + 1 < U64 →
      send core s buf n cb = PanicOr.ok core2 → InvC core2 ready) ∧
    (∀ st sock, Inv st → Inv (close st sock).1) ∧
    (∀ st ev st2, Inv st → harvestOne st ev = PanicOr.ok st2 →
      Inv st2 ∧ ev.key ∉ subKeys st2.core ∧ ev.key ∈ readyKeys st2) ∧
    (∀ core k cc rest core2, Inv ⟨core, (k, cc) :: rest⟩ →
      core.keySeq + (env.prog (cbIdOf cc)).length < U64 →
      completeOne env core (k, cc) = PanicOr.ok core2 → Inv ⟨core2, rest⟩) := by
  refine ⟨?_, ?_, ?_, ?_, ?_, ?_⟩
  · intro core ready s cb core2 hI hb h
    exact (execCmd_invc core core2 ready (.cAccept s cb) hI hb h).1
  · intro core ready s cb core2 hI hb h
    exact (execCmd_invc core core2 ready (.cRecv s cb) hI hb h).1
  · intro core ready s buf n cb core2 hI hb h
    exact (execCmd_invc core core2 ready (.cSend s buf n cb) hI hb h).1
  · intro st sock h
    exact h
  · intro st ev st2 hI h
    exact harvestOne_invc st st2 ev hI h
  · intro core k cc rest core2 hI hb h
    exact completeOne_invc env core core2 k cc rest hI hb h

/-- Witness for C9: a concrete accept submission preserves the invariant. -/
theorem record_ownership_exclusive_witness :
    InvC ⟨1, 1, [(0, Completion.accept 0 3 0)], [], []⟩ [] :=
  (record_ownership_exclusive env0).1 initCore [] 3 0
    ⟨1, 1, [(0, Completion.accept 0 3 0)], [], []⟩
    (by refine ⟨?_, ?_, ?_⟩ <;> intro k hk <;> simp [subKeys, initCore] at hk)
    (by decide) rfl

end Hiisi
